import Mathlib

/-!
A verification development for the `maklogger` Go library: a console
log-formatting package with colored output, level tables, caller-location
display and structured JSON field blocks.

The Go sources (`colors.go`, `maklogger.go`, `callerinfo.go`) are embedded
shallowly below:

* ANSI color constants and the `Colorize` / `ColorizeIfEnabled` wrappers;
* the severity `Level` constants (Go `iota` over `int`);
* the caller resolver `getCallerInfo` (with `runtime.Caller` abstracted as
  an explicit stack-walk oracle passed in as a function);
* the field serializer `formatFieldsAsJSON`, together with a faithful model
  of `encoding/json.MarshalIndent` on the value shapes a `map[string]any`
  can carry (null, bools, integers, strings, slices, nested string-keyed
  maps, plus an `unsupported` constructor standing for values such as
  channels or functions that `json.Marshal` rejects with
  `json: unsupported type: ...`);
* the core `log` method, modelled as a function from the renderer
  configuration, the runtime oracles (clock string, stack walk) and the
  event to the list of writes it performs on standard output.

Strings are handled at the `List Char` level where proofs need structure;
Go compares and sorts map keys bytewise over UTF-8, which coincides with
code-point lexicographic order, modelled by `charListLt` below.
-/

namespace Maklogger

/-- ANSI color code, a string type in the Go source (`type Color string`). -/
abbrev Color := String

/-- Severity level, an integer in the Go source (`type Level int`). -/
abbrev Level := Int

/-- Go `LevelInfo` (iota = 0). -/
def LevelInfo : Level := 0

/-- Go `LevelSuccess` (iota = 1). -/
def LevelSuccess : Level := 1

/-- Go `LevelDebug` (iota = 2). -/
def LevelDebug : Level := 2

/-- Go `LevelCritical` (iota = 3). -/
def LevelCritical : Level := 3

/-- Go `LevelError` (iota = 4). -/
def LevelError : Level := 4

/-- Go `LevelWarn` (iota = 5). -/
def LevelWarn : Level := 5

/-- The list of the six defined severity levels. -/
def definedLevels : List Level :=
  [LevelInfo, LevelSuccess, LevelDebug, LevelCritical, LevelError, LevelWarn]

/-- Go `Reset = "\033[0m"`. -/
def Reset : Color := "\x1b[0m"

/-- Go `Bold = "\033[1m"`. -/
def Bold : Color := "\x1b[1m"

/-- Go `BoldWhite = "\033[1;97m"`. -/
def BoldWhite : Color := "\x1b[1;97m"

/-- Go `Gray = "\033[90m"`. -/
def Gray : Color := "\x1b[90m"

/-- Go `DarkGray = "\033[2;37m"`. -/
def DarkGray : Color := "\x1b[2;37m"

/-- Go `Black = "\033[30m"`. -/
def Black : Color := "\x1b[30m"

/-- Go `Red = "\033[31m"`. -/
def Red : Color := "\x1b[31m"

/-- Go `Green = "\033[32m"`. -/
def Green : Color := "\x1b[32m"

/-- Go `Yellow = "\033[33m"`. -/
def Yellow : Color := "\x1b[33m"

/-- Go `Blue = "\033[34m"`. -/
def Blue : Color := "\x1b[34m"

/-- Go `Magenta = "\033[35m"`. -/
def Magenta : Color := "\x1b[35m"

/-- Go `Cyan = "\033[36m"`. -/
def Cyan : Color := "\x1b[36m"

/-- Go `White = "\033[37m"`. -/
def White : Color := "\x1b[37m"

/-- Go `BrightBlack = "\033[90m"`. -/
def BrightBlack : Color := "\x1b[90m"

/-- Go `BrightRed = "\033[91m"`. -/
def BrightRed : Color := "\x1b[91m"

/-- Go `BrightGreen = "\033[92m"`. -/
def BrightGreen : Color := "\x1b[92m"

/-- Go `BrightYellow = "\033[93m"`. -/
def BrightYellow : Color := "\x1b[93m"

/-- Go `BrightBlue = "\033[94m"`. -/
def BrightBlue : Color := "\x1b[94m"

/-- Go `BrightMagenta = "\033[95m"`. -/
def BrightMagenta : Color := "\x1b[95m"

/-- Go `BrightCyan = "\033[96m"`. -/
def BrightCyan : Color := "\x1b[96m"

/-- Go `BrightWhite = "\033[97m"`. -/
def BrightWhite : Color := "\x1b[97m"

/-- Go `BgBlack = "\033[40m"`. -/
def BgBlack : Color := "\x1b[40m"

/-- Go `BgRed = "\033[41m"`. -/
def BgRed : Color := "\x1b[41m"

/-- Go `BgGreen = "\033[42m"`. -/
def BgGreen : Color := "\x1b[42m"

/-- Go `BgYellow = "\033[43m"`. -/
def BgYellow : Color := "\x1b[43m"

/-- Go `BgBlue = "\033[44m"`. -/
def BgBlue : Color := "\x1b[44m"

/-- Go `BgMagenta = "\033[45m"`. -/
def BgMagenta : Color := "\x1b[45m"

/-- Go `BgCyan = "\033[46m"`. -/
def BgCyan : Color := "\x1b[46m"

/-- Go `BgWhite = "\033[47m"`. -/
def BgWhite : Color := "\x1b[47m"

/-- Go `BgBrightRed = "\033[101m"`. -/
def BgBrightRed : Color := "\x1b[101m"

/-- Go `Colorize(text, fg, bg...)` from `colors.go`: wraps `text` in the
foreground escape, the first background escape when one is supplied, and a
trailing reset.  The variadic `bg ...Color` parameter is a `List Color`. -/
def Colorize (text : String) (fg : Color) (bg : List Color) : String :=
  match bg with
  | b :: _ => fg ++ b ++ text ++ Reset
  | [] => fg ++ text ++ Reset

/-- Go `ColorizeIfEnabled(text, enabled, fg, bg...)` from `colors.go`:
returns `text` unchanged when `enabled` is false, otherwise delegates to
`Colorize`. -/
def ColorizeIfEnabled (text : String) (enabled : Bool) (fg : Color)
    (bg : List Color) : String :=
  if !enabled then text else Colorize text fg bg

/-- Bytewise (code-point) comparison of character lists; Go compares string
map keys bytewise over UTF-8, which orders the same way as code points. -/
def charListLt : List Char → List Char → Bool
  | [], [] => false
  | [], _ :: _ => true
  | _ :: _, [] => false
  | c :: cs, d :: ds =>
    if c.toNat < d.toNat then true
    else if d.toNat < c.toNat then false
    else charListLt cs ds

/-- Go string comparison `a < b` used by the JSON encoder to sort map keys. -/
def keyLt (a b : String) : Bool := charListLt a.data b.data

/-- The shapes a Go `any` value passed as a `Field` value can take, as seen
by `encoding/json`: JSON-serializable scalars and composites, plus an
`unsupported` constructor for values (channels, functions, ...) that
`json.Marshal` rejects with `json: unsupported type: <type>`. -/
inductive GoValue where
  | null : GoValue
  | boolean (b : Bool) : GoValue
  | int (n : Int) : GoValue
  | str (s : String) : GoValue
  | arr (elems : List GoValue) : GoValue
  | obj (entries : List (String × GoValue)) : GoValue
  | unsupported (typeName : String) : GoValue

/-- Go `Field` struct from `maklogger.go`: a key/value pair for structured
logging. -/
structure Field where
  Key : String
  Value : GoValue

/-- Insertion into the model of Go's `map[string]interface{}`: the map is
kept as a key-sorted association list (sorted bytewise, the order in which
`encoding/json` serializes map keys); inserting an existing key replaces
its value, which is how `fieldMap[field.Key] = field.Value` behaves. -/
def mapInsert (key : String) (v : GoValue) :
    List (String × GoValue) → List (String × GoValue)
  | [] => [(key, v)]
  | (k, w) :: rest =>
    if key = k then (key, v) :: rest
    else if keyLt key k then (key, v) :: (k, w) :: rest
    else (k, w) :: mapInsert key v rest

/-- The `fieldMap` loop of `formatFieldsAsJSON`: fold the field sequence
into the string-keyed map, later occurrences of a key overwriting earlier
ones. -/
def buildFieldMap (fields : List Field) : List (String × GoValue) :=
  fields.foldl (fun m f => mapInsert f.Key f.Value m) []

/-- Lowercase hexadecimal digit, as produced by `encoding/json`'s `\u00xx`
escapes. -/
def hexDigitChar (n : Nat) : Char :=
  if n < 10 then Char.ofNat (48 + n) else Char.ofNat (87 + n)

/-- Escaping of a single character by `encoding/json`'s string encoder with
HTML escaping on (the `json.Marshal` default): `"` and `\` get a backslash,
newline / carriage return / tab use their two-character escapes, the other
control characters and `<`, `>`, `&` become `\u00xx`, U+2028 and U+2029
become their own six-character escapes, and everything else is copied
verbatim. -/
def quoteChar (c : Char) : List Char :=
  if c = '"' then ['\\', '"']
  else if c = '\\' then ['\\', '\\']
  else if c = '\n' then ['\\', 'n']
  else if c = '\r' then ['\\', 'r']
  else if c = '\t' then ['\\', 't']
  else if c.toNat < 0x20 ∨ c = '<' ∨ c = '>' ∨ c = '&' then
    ['\\', 'u', '0', '0', hexDigitChar (c.toNat / 16), hexDigitChar (c.toNat % 16)]
  else if c.toNat = 0x2028 ∨ c.toNat = 0x2029 then
    ['\\', 'u', '2', '0', '2', hexDigitChar (c.toNat % 16)]
  else [c]

/-- Character-by-character escaping of a string body. -/
def quoteBody : List Char → List Char
  | [] => []
  | c :: rest => quoteChar c ++ quoteBody rest

/-- JSON string literal for `s`, double quotes included, as written by
`encoding/json`. -/
def quoteStr (s : String) : String :=
  ⟨'"' :: (quoteBody s.data ++ ['"'])⟩

/-- Decimal digits of `n`, most significant first; the fuel argument (any
bound above the digit count, `n + 1` suffices) makes the recursion
structural. -/
def natDigitsAux : Nat → Nat → List Char
  | 0, _ => []
  | fuel + 1, n => if n = 0 then [] else natDigitsAux fuel (n / 10) ++ [Char.ofNat (48 + n % 10)]

/-- Decimal representation of a natural number. -/
def natRepr (n : Nat) : String :=
  if n = 0 then "0" else ⟨natDigitsAux (n + 1) n⟩

/-- Decimal representation of a Go `int`, as produced by `strconv.Itoa`
and by `encoding/json` for integer values. -/
def itoa : Int → String
  | .ofNat m => natRepr m
  | .negSucc m => "-" ++ natRepr (m + 1)

/-- String repetition, for the `prefix + indent × depth` line leads of
`json.Indent`. -/
def repeatStr (s : String) : Nat → String
  | 0 => ""
  | n + 1 => s ++ repeatStr s n

/-- Insertion into a key-sorted entry list, used to model the JSON
encoder's `sort.Strings` over map keys. -/
def insertEntry (e : String × GoValue) :
    List (String × GoValue) → List (String × GoValue)
  | [] => [e]
  | f :: rest => if keyLt e.1 f.1 then e :: f :: rest else f :: insertEntry e rest

/-- Sorting of an entry list by key, the order `encoding/json` emits the
entries of a map in. -/
def sortEntries (es : List (String × GoValue)) : List (String × GoValue) :=
  es.foldr insertEntry []

mutual

/-- Recursive pass putting every (nested) map's entries into the key order
`encoding/json` serializes them in; arrays keep their element order. -/
def sortDeep : GoValue → GoValue
  | .obj es => .obj (sortEntries (sortDeepEntries es))
  | .arr es => .arr (sortDeepList es)
  | v => v

/-- `sortDeep` mapped over array elements. -/
def sortDeepList : List GoValue → List GoValue
  | [] => []
  | v :: rest => sortDeep v :: sortDeepList rest

/-- `sortDeep` mapped over the values of map entries. -/
def sortDeepEntries : List (String × GoValue) → List (String × GoValue)
  | [] => []
  | (k, v) :: rest => (k, sortDeep v) :: sortDeepEntries rest

end

/-- Joining with a separator (`strings.Join`). -/
def joinSep (sep : String) : List String → String
  | [] => ""
  | [s] => s
  | s :: rest => s ++ sep ++ joinSep sep rest

mutual

/-- The output of `encoding/json`'s indented encoder on a value whose maps
have already been put into encoder key order (`sortDeep`), at nesting depth
`d` with line lead `pfx` and indent unit `ind`: scalars render inline,
non-empty composites open with their bracket, put each member on its own
line led by `pfx ++ ind^(d+1)`, separate members with `",\n"`, and close
with a line led by `pfx ++ ind^d`; unsupported values abort the whole
encoding with Go's `json: unsupported type` error. -/
def encodeValue (pfx ind : String) (d : Nat) : GoValue → Except String String
  | .null => .ok "null"
  | .boolean b => .ok (if b then "true" else "false")
  | .int n => .ok (itoa n)
  | .str s => .ok (quoteStr s)
  | .arr es =>
    match es with
    | [] => .ok "[]"
    | _ :: _ =>
      match encodeElems pfx ind (d + 1) es with
      | .error e => .error e
      | .ok strs =>
        .ok ("[\n" ++ joinSep ",\n" strs ++ "\n" ++ pfx ++ repeatStr ind d ++ "]")
  | .obj es =>
    match es with
    | [] => .ok "\x7b\x7d"
    | _ :: _ =>
      match encodeEntries pfx ind (d + 1) es with
      | .error e => .error e
      | .ok strs =>
        .ok ("\x7b\n" ++ joinSep ",\n" strs ++ "\n" ++ pfx ++ repeatStr ind d ++ "\x7d")
  | .unsupported t => .error ("json: unsupported type: " ++ t)

/-- One line per array element, each led by `pfx ++ ind^d`; the first
element that fails to encode aborts with its error. -/
def encodeElems (pfx ind : String) (d : Nat) : List GoValue → Except String (List String)
  | [] => .ok []
  | v :: rest =>
    match encodeValue pfx ind d v with
    | .error e => .error e
    | .ok s =>
      match encodeElems pfx ind d rest with
      | .error e => .error e
      | .ok r => .ok ((pfx ++ repeatStr ind d ++ s) :: r)

/-- One line per object entry, `pfx ++ ind^d ++ quoted key ++ ": " ++ value`;
the first value that fails to encode aborts with its error. -/
def encodeEntries (pfx ind : String) (d : Nat) :
    List (String × GoValue) → Except String (List String)
  | [] => .ok []
  | (k, v) :: rest =>
    match encodeValue pfx ind d v with
    | .error e => .error e
    | .ok s =>
      match encodeEntries pfx ind d rest with
      | .error e => .error e
      | .ok r => .ok ((pfx ++ repeatStr ind d ++ quoteStr k ++ ": " ++ s) :: r)

end

/-- Model of `json.MarshalIndent(v, pfx, ind)`: maps are serialized with
their keys in sorted order (`sortDeep`), then the value is encoded at
depth 0; the first line carries no lead, every later line starts with
`pfx` plus one indent unit per nesting level. -/
def marshalIndent (v : GoValue) (pfx ind : String) : Except String String :=
  encodeValue pfx ind 0 (sortDeep v)

/-- Character-level model of the line-indenting loop of
`formatFieldsAsJSON` (`strings.Split` on `"\n"`, two spaces in front of
each line, `strings.Join` with `"\n"`): two spaces go in front of the
first line and after every newline. -/
def addLineIndentAux : List Char → List Char
  | [] => []
  | c :: rest =>
    if c = '\n' then c :: ' ' :: ' ' :: addLineIndentAux rest
    else c :: addLineIndentAux rest

/-- The `lines := strings.Split(...); lines[i] = "  " + line; strings.Join`
step of `formatFieldsAsJSON`. -/
def addLineIndent (s : String) : String :=
  ⟨' ' :: ' ' :: addLineIndentAux s.data⟩

/-- Go `formatFieldsAsJSON` from `maklogger.go`: empty input yields the
empty string; otherwise the fields are folded into a `map[string]any`
(later duplicates win), marshalled with `json.MarshalIndent(fieldMap, "  ",
"  ")`, and every output line is given two further spaces of indentation;
a marshalling error is replaced by the literal fallback block carrying the
error text. -/
def formatFieldsAsJSON (fields : List Field) : String :=
  if fields.length = 0 then ""
  else
    match marshalIndent (.obj (buildFieldMap fields)) "  " "  " with
    | .error err =>
      "  \x7b\n    \"error\": \"failed to marshal fields: " ++ err ++ "\"\n  \x7d"
    | .ok jsonStr => addLineIndent jsonStr

/-- Character-level model of `strings.Split` on a one-character separator
(every occurrence splits, empty pieces kept, result never empty). -/
def splitChar (sep : Char) : List Char → List (List Char)
  | [] => [[]]
  | c :: rest =>
    match splitChar sep rest with
    | [] => [[]]
    | cur :: rs => if c = sep then [] :: cur :: rs else (c :: cur) :: rs

/-- The function-name shortening in `log`: `strings.Split(fn, ".")` and keep
the last piece (the slice is never empty, so the guarded fallback to the
full name is unreachable but kept as the default). -/
def shortFnOf (fn : String) : String :=
  ⟨(splitChar '.' fn.data).getLastD fn.data⟩

/-- One answer of Go's `runtime.Caller`/`runtime.FuncForPC` pair: the file
path and line of the frame, and the function name when symbol information
resolves (`runtime.FuncForPC` can return nil). -/
structure CallerFrame where
  file : String
  line : Int
  funcName : Option String

/-- Model of `path/filepath.Base` on Unix paths: empty path gives `"."`,
trailing slashes are dropped, a path of only slashes gives `"/"`, and
otherwise the piece after the last slash remains. -/
def filepathBase (path : String) : String :=
  if path = "" then "."
  else
    let trimmed := (path.data.reverse.dropWhile (fun c => c = '/')).reverse
    if trimmed = [] then "/"
    else ⟨(trimmed.reverse.takeWhile (fun c => c ≠ '/')).reverse⟩

/-- Go `getCallerInfo(skip)` from `callerinfo.go`, with the runtime's stack
walk abstracted as the oracle `callerAt` (what `runtime.Caller(skip)`
answers): on a failed walk the sentinel triple `("???", 0, "???")` comes
back; otherwise the file is shortened with `filepath.Base` and a nil
function symbol also falls back to `"???"`. -/
def getCallerInfo (callerAt : Nat → Option CallerFrame) (skip : Nat) :
    String × Int × String :=
  match callerAt skip with
  | none => ("???", 0, "???")
  | some fr => (filepathBase fr.file, fr.line, fr.funcName.getD "???")

/-- Go `getColoredLevel` from `maklogger.go`: the per-level icon and padded
label, each colorized when enabled; levels outside the six-case switch
yield the literal `"UNDEFINED"`. -/
def getColoredLevel (colorsEnabled : Bool) (level : Level) : String :=
  if level = LevelInfo then
    ColorizeIfEnabled "📝 " colorsEnabled BrightBlue [] ++ " " ++
      ColorizeIfEnabled "INFO    " colorsEnabled BoldWhite [BgBlue]
  else if level = LevelSuccess then
    ColorizeIfEnabled "✅ " colorsEnabled BrightGreen [] ++ " " ++
      ColorizeIfEnabled "SUCCESS " colorsEnabled BoldWhite [BgGreen]
  else if level = LevelDebug then
    ColorizeIfEnabled "🐛 " colorsEnabled BrightMagenta [] ++ " " ++
      ColorizeIfEnabled "DEBUG   " colorsEnabled BoldWhite [BgMagenta]
  else if level = LevelCritical then
    ColorizeIfEnabled "🛑 " colorsEnabled BrightRed [] ++ " " ++
      ColorizeIfEnabled "CRITICAL" colorsEnabled BoldWhite [BgBrightRed]
  else if level = LevelError then
    ColorizeIfEnabled "❌ " colorsEnabled BrightRed [] ++ " " ++
      ColorizeIfEnabled "ERROR   " colorsEnabled BoldWhite [BgRed]
  else if level = LevelWarn then
    ColorizeIfEnabled "⚠️ " colorsEnabled BrightYellow [] ++ " " ++
      ColorizeIfEnabled "WARNING " colorsEnabled Bold [BgYellow]
  else "UNDEFINED"

/-- Go `getColoredMessage` from `maklogger.go`: the message text in the
level's message color; levels outside the switch yield `"UNDEFINED"`. -/
def getColoredMessage (colorsEnabled : Bool) (level : Level) (message : String) :
    String :=
  if level = LevelInfo then ColorizeIfEnabled message colorsEnabled BrightWhite []
  else if level = LevelSuccess then
    ColorizeIfEnabled message colorsEnabled BrightGreen []
  else if level = LevelDebug then
    ColorizeIfEnabled message colorsEnabled BrightMagenta []
  else if level = LevelCritical then
    ColorizeIfEnabled message colorsEnabled BrightRed [BgBlack]
  else if level = LevelError then ColorizeIfEnabled message colorsEnabled BrightRed []
  else if level = LevelWarn then
    ColorizeIfEnabled message colorsEnabled BrightYellow []
  else "UNDEFINED"

/-- The icon literal of the level presentation table (the Go source
literals carry a trailing space). -/
def levelIcon (level : Level) : String :=
  if level = LevelInfo then "📝 "
  else if level = LevelSuccess then "✅ "
  else if level = LevelDebug then "🐛 "
  else if level = LevelCritical then "🛑 "
  else if level = LevelError then "❌ "
  else if level = LevelWarn then "⚠️ "
  else ""

/-- The padded label literal of the level presentation table. -/
def levelLabel (level : Level) : String :=
  if level = LevelInfo then "INFO    "
  else if level = LevelSuccess then "SUCCESS "
  else if level = LevelDebug then "DEBUG   "
  else if level = LevelCritical then "CRITICAL"
  else if level = LevelError then "ERROR   "
  else if level = LevelWarn then "WARNING "
  else ""

/-- The `module` string of `log`: `fmt.Sprintf("%s %s:%s %s %s", 📁, file,
line, ⚡, shortFn)` with each piece independently colorized. -/
def moduleStr (colorsEnabled : Bool) (file : String) (line : Int) (fn : String) :
    String :=
  ColorizeIfEnabled "📁" colorsEnabled BrightBlue [] ++ " " ++
    ColorizeIfEnabled file colorsEnabled Cyan [] ++ ":" ++
    ColorizeIfEnabled (itoa line) colorsEnabled BrightCyan [] ++ " " ++
    ColorizeIfEnabled "⚡" colorsEnabled BrightYellow [] ++ " " ++
    ColorizeIfEnabled (shortFnOf fn) colorsEnabled Magenta []

/-- The `message` string of `log`: `fmt.Sprintf("%s %s │ %s │ %s │ %s %s",
🕒, timestamp, levelSegment, module, 💬, coloredMessage)`. -/
def messageStr (colorsEnabled : Bool) (ts : String) (level : Level)
    (msg file : String) (line : Int) (fn : String) : String :=
  ColorizeIfEnabled "🕒 " colorsEnabled BrightGreen [] ++ " " ++
    ColorizeIfEnabled ts colorsEnabled Green [] ++ " │ " ++
    getColoredLevel colorsEnabled level ++ " │ " ++
    moduleStr colorsEnabled file line fn ++ " │ " ++
    ColorizeIfEnabled "💬 " colorsEnabled BrightWhite [] ++ " " ++
    getColoredMessage colorsEnabled level msg

/-- The second write of `log` when fields are present:
`fmt.Printf("%s %s\n%s\n", 📊, "Fields:", coloredFieldBlock)`. -/
def fieldsStr (colorsEnabled : Bool) (fields : List Field) : String :=
  ColorizeIfEnabled "📊 " colorsEnabled BrightMagenta [] ++ " " ++
    ColorizeIfEnabled "Fields:" colorsEnabled BrightWhite [] ++ "\n" ++
    ColorizeIfEnabled (formatFieldsAsJSON fields) colorsEnabled BrightBlack [] ++
    "\n"

/-- Go `log` from `maklogger.go`, as the list of writes performed on
standard output: the caller triple is resolved at skip depth 3, the main
line goes out through `fmt.Println` (hence the trailing newline), and a
second write with the field block follows exactly when fields were passed.
The clock (`time.Now` formatted) and the stack walk are the ambient-runtime
inputs `ts` and `callerAt`; the `color` parameter mirrors the unused
parameter of the Go method. -/
def log (colorsEnabled : Bool) (callerAt : Nat → Option CallerFrame)
    (ts : String) (level : Level) (color : Color) (msg : String)
    (fields : List Field) : List String :=
  match getCallerInfo callerAt 3 with
  | (file, line, fn) =>
    (messageStr colorsEnabled ts level msg file line fn ++ "\n") ::
      (if fields.length > 0 then [fieldsStr colorsEnabled fields] else [])

/-- A field list with duplicate keys collapsed to their last occurrence
(the spec's description of how the serializer's map coalesces keys). -/
def collapseFields : List Field → List Field
  | [] => []
  | f :: rest =>
    if rest.any (fun g => g.Key == f.Key) then collapseFields rest
    else f :: collapseFields rest

mutual

/-- Whether a value contains a shape `json.Marshal` cannot serialize. -/
def hasUnsupported : GoValue → Bool
  | .unsupported _ => true
  | .arr es => hasUnsupportedList es
  | .obj es => hasUnsupportedEntries es
  | _ => false

/-- `hasUnsupported` over array elements. -/
def hasUnsupportedList : List GoValue → Bool
  | [] => false
  | v :: rest => hasUnsupported v || hasUnsupportedList rest

/-- `hasUnsupported` over the values of map entries. -/
def hasUnsupportedEntries : List (String × GoValue) → Bool
  | [] => false
  | (_, v) :: rest => hasUnsupported v || hasUnsupportedEntries rest

end

/-- The pieces `ks` all occur in `s`, pairwise disjoint and in the given
order. -/
def containsInOrder : List (List Char) → List Char → Prop
  | [], _ => True
  | k :: ks, s => ∃ a b, s = a ++ k ++ b ∧ containsInOrder ks b

/-- The string carries no ANSI escape byte (0x1B). -/
def noEsc (s : String) : Prop := '\x1b' ∉ s.data

instance (s : String) : Decidable (noEsc s) :=
  inferInstanceAs (Decidable ('\x1b' ∉ s.data))

/-! ## General helper lemmas -/

theorem noEsc_append {a b : String} : noEsc (a ++ b) ↔ noEsc a ∧ noEsc b := by
  simp [noEsc, String.data_append, List.mem_append, not_or]

theorem colorizeIfEnabled_disabled (t : String) (fg : Color) (bg : List Color) :
    ColorizeIfEnabled t false fg bg = t := rfl

/-! ## Order lemmas for the bytewise key comparison -/

theorem char_toNat_inj {a b : Char} (h : a.toNat = b.toNat) : a = b := by
  have h2 := congrArg Char.ofNat h
  rwa [Char.ofNat_toNat, Char.ofNat_toNat] at h2

theorem charListLt_irrefl : ∀ l, charListLt l l = false
  | [] => rfl
  | c :: cs => by
    simp [charListLt, Nat.lt_irrefl, charListLt_irrefl cs]

theorem charListLt_asymm : ∀ {a b : List Char},
    charListLt a b = true → charListLt b a = false
  | [], [], h => by simp [charListLt] at h
  | [], _ :: _, _ => by simp [charListLt]
  | _ :: _, [], h => by simp [charListLt] at h
  | c :: cs, d :: ds, h => by
    simp only [charListLt] at h ⊢
    by_cases h1 : c.toNat < d.toNat
    · have h2 : ¬ d.toNat < c.toNat := by omega
      simp [h1, h2]
    · by_cases h2 : d.toNat < c.toNat
      · simp [h1, h2] at h
      · simp only [if_neg h1, if_neg h2] at h ⊢
        exact charListLt_asymm h

theorem charListLt_trans : ∀ {a b c : List Char},
    charListLt a b = true → charListLt b c = true → charListLt a c = true
  | [], _, _ :: _, _, _ => by simp [charListLt]
  | [], [], _, _, hbc => hbc
  | [], _ :: _, [], _, hbc => by simp [charListLt] at hbc
  | _ :: _, [], _, hab, _ => by simp [charListLt] at hab
  | _ :: _, _ :: _, [], _, hbc => by simp [charListLt] at hbc
  | a :: as, b :: bs, c :: cs, hab, hbc => by
    simp only [charListLt] at hab hbc ⊢
    by_cases h1 : a.toNat < b.toNat
    · by_cases h2 : b.toNat < c.toNat
      · have : a.toNat < c.toNat := by omega
        simp [this]
      · have h3 : ¬ c.toNat < b.toNat := by
          intro hc
          simp [if_neg h2, hc] at hbc
        have h4 : b.toNat = c.toNat := by omega
        have : a.toNat < c.toNat := by omega
        simp [this]
    · have h2 : ¬ b.toNat < a.toNat := by
        intro hc
        simp [if_neg h1, hc] at hab
      have h3 : a.toNat = b.toNat := by omega
      by_cases h4 : b.toNat < c.toNat
      · have : a.toNat < c.toNat := by omega
        simp [this]
      · have h5 : ¬ c.toNat < b.toNat := by
          intro hc
          simp [if_neg h4, hc] at hbc
        have h6 : ¬ a.toNat < c.toNat := by omega
        have h7 : ¬ c.toNat < a.toNat := by omega
        simp only [if_neg h1, if_neg h2] at hab
        simp only [if_neg h4, if_neg h5] at hbc
        simp only [if_neg h6, if_neg h7]
        exact charListLt_trans hab hbc

theorem charListLt_conn : ∀ {a b : List Char},
    a ≠ b → charListLt a b = true ∨ charListLt b a = true
  | [], [], h => absurd rfl h
  | [], _ :: _, _ => Or.inl (by simp [charListLt])
  | _ :: _, [], _ => Or.inr (by simp [charListLt])
  | c :: cs, d :: ds, h => by
    by_cases h1 : c.toNat < d.toNat
    · exact Or.inl (by simp [charListLt, h1])
    · by_cases h2 : d.toNat < c.toNat
      · exact Or.inr (by simp [charListLt, h2])
      · have hcd : c = d := char_toNat_inj (by omega)
        subst hcd
        have hne : cs ≠ ds := by
          intro he
          exact h (by rw [he])
        rcases charListLt_conn hne with h3 | h3
        · exact Or.inl (by simp [charListLt, h1, h2, h3])
        · exact Or.inr (by simp [charListLt, h1, h2, h3])

theorem string_data_inj {a b : String} (h : a.data = b.data) : a = b := by
  cases a
  cases b
  exact congrArg String.mk h

theorem keyLt_irrefl (a : String) : keyLt a a = false :=
  charListLt_irrefl a.data

theorem keyLt_asymm {a b : String} (h : keyLt a b = true) : keyLt b a = false :=
  charListLt_asymm h

theorem keyLt_trans {a b c : String} (h1 : keyLt a b = true)
    (h2 : keyLt b c = true) : keyLt a c = true :=
  charListLt_trans h1 h2

theorem keyLt_conn {a b : String} (h : a ≠ b) :
    keyLt a b = true ∨ keyLt b a = true :=
  charListLt_conn (fun he => h (string_data_inj he))

theorem keyLt_of_not {a b : String} (hne : a ≠ b) (hnl : ¬ keyLt a b = true) :
    keyLt b a = true := by
  rcases keyLt_conn hne with h | h
  · exact absurd h hnl
  · exact h

/-! ## Map-insertion lemmas -/

theorem mapInsert_overwrite (k : String) (v₁ v₂ : GoValue) :
    ∀ m, mapInsert k v₂ (mapInsert k v₁ m) = mapInsert k v₂ m
  | [] => by simp [mapInsert]
  | (k', w) :: rest => by
    by_cases hk : k = k'
    · subst hk
      simp [mapInsert]
    · by_cases hlt : keyLt k k' = true
      · simp [mapInsert, hk, hlt]
      · simp [mapInsert, hk, hlt, mapInsert_overwrite k v₁ v₂ rest]

theorem mapInsert_comm {k k' : String} (hne : k ≠ k') (v v' : GoValue) :
    ∀ m, mapInsert k v (mapInsert k' v' m) = mapInsert k' v' (mapInsert k v m)
  | [] => by
    have hne' : k' ≠ k := fun he => hne he.symm
    rcases keyLt_conn hne with h | h
    · have h2 := keyLt_asymm h
      simp [mapInsert, hne, hne', h, h2]
    · have h2 := keyLt_asymm h
      simp [mapInsert, hne, hne', h, h2]
  | (k₀, w) :: rest => by
    have hne' : k' ≠ k := fun he => hne he.symm
    by_cases hk0' : k' = k₀
    · subst hk0'
      by_cases hlt : keyLt k k' = true
      · have h2 := keyLt_asymm hlt
        simp [mapInsert, hne, hne', hlt, h2]
      · simp [mapInsert, hne, hne', hlt]
    · by_cases hk0 : k = k₀
      · subst hk0
        by_cases hlt : keyLt k' k = true
        · have h2 := keyLt_asymm hlt
          simp [mapInsert, hne, hne', hlt, h2, hk0']
        · simp [mapInsert, hne, hne', hlt, hk0']
      · by_cases hl1 : keyLt k k₀ = true
        · by_cases hl2 : keyLt k' k₀ = true
          · by_cases hkk : keyLt k k' = true
            · have h2 := keyLt_asymm hkk
              simp [mapInsert, hne, hne', hl1, hl2, hkk, h2, hk0, hk0']
            · have hkk' : keyLt k' k = true := keyLt_of_not hne (fun hc => hkk hc)
              simp [mapInsert, hne, hne', hl1, hl2, hkk, hkk', hk0, hk0']
          · have hkk : keyLt k k' = true := by
              have h3 : keyLt k₀ k' = true := keyLt_of_not hk0' hl2
              exact keyLt_trans hl1 h3
            have h2 := keyLt_asymm hkk
            simp [mapInsert, hne, hne', hl1, hl2, hkk, h2, hk0, hk0']
        · by_cases hl2 : keyLt k' k₀ = true
          · have hkk' : keyLt k' k = true := by
              have h3 : keyLt k₀ k = true := keyLt_of_not hk0 hl1
              exact keyLt_trans hl2 h3
            have h2 := keyLt_asymm hkk'
            simp [mapInsert, hne, hne', hl1, hl2, hkk', h2, hk0, hk0']
          · simp [mapInsert, hne, hne', hl1, hl2, hk0, hk0',
              mapInsert_comm hne v v' rest]

theorem foldl_mapInsert_absorb :
    ∀ (fields : List Field) (k : String) (v : GoValue)
      (m : List (String × GoValue)),
      (fields.any fun g => g.Key == k) = true →
      fields.foldl (fun m f => mapInsert f.Key f.Value m) (mapInsert k v m) =
        fields.foldl (fun m f => mapInsert f.Key f.Value m) m
  | [], _, _, _, h => by simp at h
  | g :: rest, k, v, m, h => by
    simp only [List.foldl_cons]
    by_cases hg : g.Key = k
    · have ho : mapInsert g.Key g.Value (mapInsert k v m) =
          mapInsert g.Key g.Value m := by
        rw [hg]
        exact mapInsert_overwrite k v g.Value m
      rw [ho]
    · have hrest : (rest.any fun g' => g'.Key == k) = true := by
        simp only [List.any_cons, Bool.or_eq_true, beq_iff_eq] at h
        rcases h with h | h
        · exact absurd h hg
        · simpa [List.any_eq_true, beq_iff_eq] using h
      rw [mapInsert_comm hg g.Value v m]
      exact foldl_mapInsert_absorb rest k v (mapInsert g.Key g.Value m) hrest

theorem buildFieldMap_collapse_aux :
    ∀ (fields : List Field) (m : List (String × GoValue)),
      fields.foldl (fun m f => mapInsert f.Key f.Value m) m =
        (collapseFields fields).foldl (fun m f => mapInsert f.Key f.Value m) m
  | [], _ => rfl
  | f :: rest, m => by
    simp only [collapseFields, List.foldl_cons]
    by_cases ha : (rest.any fun g => g.Key == f.Key) = true
    · rw [if_pos ha, foldl_mapInsert_absorb rest f.Key f.Value m ha]
      exact buildFieldMap_collapse_aux rest m
    · rw [if_neg ha]
      simp only [List.foldl_cons]
      exact buildFieldMap_collapse_aux rest (mapInsert f.Key f.Value m)

theorem buildFieldMap_collapse (fields : List Field) :
    buildFieldMap fields = buildFieldMap (collapseFields fields) :=
  buildFieldMap_collapse_aux fields []

theorem collapseFields_nil_iff : ∀ fields : List Field,
    collapseFields fields = [] ↔ fields = []
  | [] => by simp [collapseFields]
  | f :: rest => by
    simp only [collapseFields]
    by_cases ha : (rest.any fun g => g.Key == f.Key) = true
    · rw [if_pos ha]
      constructor
      · intro h
        have h2 := (collapseFields_nil_iff rest).mp h
        subst h2
        simp at ha
      · intro h
        cases h
    · rw [if_neg ha]
      simp

/-! ## Claim C3 -/

/-- C3: serializing a field sequence equals serializing the sequence with
duplicate keys collapsed to their last occurrence (last-write-wins), and on
the duplicate-key example `[("a",1), ("a",2)]` the block carries the later
value `2` and not `1`. -/
theorem serialize_last_write_wins :
    (∀ fields : List Field,
      formatFieldsAsJSON fields = formatFieldsAsJSON (collapseFields fields)) ∧
    formatFieldsAsJSON [⟨"a", GoValue.int 1⟩, ⟨"a", GoValue.int 2⟩] =
      formatFieldsAsJSON [⟨"a", GoValue.int 2⟩] ∧
    '2' ∈ (formatFieldsAsJSON [⟨"a", GoValue.int 1⟩, ⟨"a", GoValue.int 2⟩]).data ∧
    '1' ∉ (formatFieldsAsJSON [⟨"a", GoValue.int 1⟩, ⟨"a", GoValue.int 2⟩]).data := by
  refine ⟨?_, by rfl, by decide, by decide⟩
  intro fields
  rcases fields with _ | ⟨f, rest⟩
  · rfl
  · have hc : collapseFields (f :: rest) ≠ [] := by
      rw [Ne, collapseFields_nil_iff]
      simp
    rw [formatFieldsAsJSON, formatFieldsAsJSON,
      if_neg (by simp : ¬ (f :: rest).length = 0),
      if_neg (by simpa [List.length_eq_zero] using hc),
      buildFieldMap_collapse]

/-! ## Serialization-failure lemmas -/

theorem mem_insertEntry {e f : String × GoValue} :
    ∀ {l}, e ∈ insertEntry f l ↔ e = f ∨ e ∈ l
  | [] => by simp [insertEntry]
  | g :: rest => by
    simp only [insertEntry]
    by_cases h : keyLt f.1 g.1 = true
    · simp only [if_pos h, List.mem_cons]
    · simp only [if_neg h, List.mem_cons, mem_insertEntry (l := rest)]
      tauto

theorem mem_sortEntries {e : String × GoValue} :
    ∀ {es}, e ∈ es → e ∈ sortEntries es
  | [], h => by cases h
  | f :: rest, h => by
    simp only [sortEntries, List.foldr_cons]
    rw [show List.foldr insertEntry [] rest = sortEntries rest from rfl,
      mem_insertEntry]
    rcases List.mem_cons.mp h with h | h
    · exact Or.inl h
    · exact Or.inr (mem_sortEntries h)

theorem unsupported_mem_sortDeepEntries {k t : String} :
    ∀ {es : List (String × GoValue)}, (k, GoValue.unsupported t) ∈ es →
      (k, GoValue.unsupported t) ∈ sortDeepEntries es
  | [], h => by cases h
  | (k', v) :: rest, h => by
    simp only [sortDeepEntries]
    rcases List.mem_cons.mp h with h | h
    · cases h
      exact List.mem_cons_self _ _
    · exact List.mem_cons_of_mem _ (unsupported_mem_sortDeepEntries h)

theorem encodeEntries_error_of_mem_unsupported (pfx ind : String) (d : Nat)
    {k t : String} : ∀ {es}, (k, GoValue.unsupported t) ∈ es →
      ∃ e, encodeEntries pfx ind d es = .error e
  | [], h => by cases h
  | (k', v) :: rest, h => by
    rcases List.mem_cons.mp h with h | h
    · cases h
      exact ⟨"json: unsupported type: " ++ t, by simp [encodeEntries, encodeValue]⟩
    · cases hev : encodeValue pfx ind d v with
      | error e => exact ⟨e, by simp [encodeEntries, hev]⟩
      | ok s =>
        obtain ⟨e, he⟩ := encodeEntries_error_of_mem_unsupported pfx ind d h
        exact ⟨e, by simp [encodeEntries, hev, he]⟩

theorem marshal_error_of_unsupported_entry {m : List (String × GoValue)}
    {k t : String} (h : (k, GoValue.unsupported t) ∈ m) :
    ∃ e, marshalIndent (.obj m) "  " "  " = .error e := by
  have h1 : (k, GoValue.unsupported t) ∈ sortEntries (sortDeepEntries m) :=
    mem_sortEntries (unsupported_mem_sortDeepEntries h)
  obtain ⟨e, he⟩ := encodeEntries_error_of_mem_unsupported "  " "  " 1 h1
  rcases hse : sortEntries (sortDeepEntries m) with _ | ⟨f, rest⟩
  · rw [hse] at h1
    cases h1
  · refine ⟨e, ?_⟩
    rw [marshalIndent, show sortDeep (.obj m) =
      .obj (sortEntries (sortDeepEntries m)) from by simp [sortDeep], hse]
    rw [hse] at he
    simp [encodeValue, he]

/-! ## Claim C7 -/

/-- C7: a field sequence whose values cannot be JSON-serialized produces the
fixed fallback block — an object with an `"error"` key whose value carries
the failure description, on the two-space indentation layout — and the
serializer still returns a string (no error reaches the render caller);
moreover any field map carrying a value `json.Marshal` rejects does make
marshalling fail. -/
theorem marshal_failure_fallback :
    (∀ (fields : List Field) (e : String), fields ≠ [] →
      marshalIndent (.obj (buildFieldMap fields)) "  " "  " = .error e →
      formatFieldsAsJSON fields =
        "  \x7b\n    \"error\": \"failed to marshal fields: " ++ e ++ "\"\n  \x7d" ∧
      ∃ x y, formatFieldsAsJSON fields = x ++ "\"error\"" ++ y) ∧
    (∀ (fields : List Field) (k t : String),
      (k, GoValue.unsupported t) ∈ buildFieldMap fields →
      ∃ e, marshalIndent (.obj (buildFieldMap fields)) "  " "  " = .error e) := by
  constructor
  · intro fields e hne hm
    have heq : formatFieldsAsJSON fields =
        "  \x7b\n    \"error\": \"failed to marshal fields: " ++ e ++ "\"\n  \x7d" := by
      rw [formatFieldsAsJSON, if_neg (by simpa [List.length_eq_zero] using hne), hm]
    refine ⟨heq, "  \x7b\n    ", ": \"failed to marshal fields: " ++ e ++ "\"\n  \x7d", ?_⟩
    rw [heq]
    simp only [String.append_assoc]
    rw [← String.append_assoc "\"error\"" ": \"failed to marshal fields: "]
    simp only [show ("\"error\"" : String) ++ ": \"failed to marshal fields: " =
      "\"error\": \"failed to marshal fields: " from rfl]
    rw [← String.append_assoc "  \x7b\n    " "\"error\": \"failed to marshal fields: "]
    simp only [show ("  \x7b\n    " : String) ++ "\"error\": \"failed to marshal fields: " =
      "  \x7b\n    \"error\": \"failed to marshal fields: " from rfl]
  · intro fields k t h
    exact marshal_error_of_unsupported_entry h

/-- Witness for C7 at a field whose value is a channel-typed shape. -/
theorem marshal_failure_fallback_witness :
    (([⟨"ch", GoValue.unsupported "chan int"⟩] : List Field) ≠ []) ∧
    marshalIndent (.obj (buildFieldMap [⟨"ch", GoValue.unsupported "chan int"⟩]))
      "  " "  " = .error "json: unsupported type: chan int" ∧
    formatFieldsAsJSON [⟨"ch", GoValue.unsupported "chan int"⟩] =
      "  \x7b\n    \"error\": \"failed to marshal fields: " ++
        "json: unsupported type: chan int" ++ "\"\n  \x7d" ∧
    ∃ x y, formatFieldsAsJSON [⟨"ch", GoValue.unsupported "chan int"⟩] =
      x ++ "\"error\"" ++ y := by
  have h := marshal_failure_fallback.1 [⟨"ch", GoValue.unsupported "chan int"⟩]
    "json: unsupported type: chan int" (by simp) (by rfl)
  exact ⟨by simp, rfl, h.1, h.2⟩

/-! ## Claim C4 -/

/-- C4: for every text, foreground and optional background,
`ColorizeIfEnabled` with colors disabled returns the input byte-identical,
and with colors enabled returns foreground escape, optional background
escape, text and reset concatenated — a string different from the input
that contains the input as a substring. -/
theorem colorizeIfEnabled_gating (text : String) (fg : Color) (bg : List Color) :
    ColorizeIfEnabled text false fg bg = text ∧
    ColorizeIfEnabled text true fg bg = Colorize text fg bg ∧
    ColorizeIfEnabled text true fg bg =
      (match bg with
        | [] => fg ++ text ++ Reset
        | b :: _ => fg ++ b ++ text ++ Reset) ∧
    ColorizeIfEnabled text true fg bg ≠ text ∧
    ∃ x y, ColorizeIfEnabled text true fg bg = x ++ text ++ y := by
  refine ⟨rfl, rfl, ?_, ?_, ?_⟩
  · cases bg <;> rfl
  · cases bg with
    | nil =>
      intro h
      have h2 : (fg ++ text ++ Reset).length = text.length := congrArg String.length h
      rw [String.length_append, String.length_append] at h2
      have hR : Reset.length = 4 := rfl
      omega
    | cons b rest =>
      intro h
      have h2 : (fg ++ b ++ text ++ Reset).length = text.length := congrArg String.length h
      rw [String.length_append, String.length_append, String.length_append] at h2
      have hR : Reset.length = 4 := rfl
      omega
  · cases bg with
    | nil => exact ⟨fg, Reset, rfl⟩
    | cons b rest => exact ⟨fg ++ b, Reset, rfl⟩

/-! ## Claim C10 -/

/-- C10: the named colors `Gray` and `BrightBlack` are bound to the same
escape string `"\x1b[90m"`, so colorizing any text with one yields output
byte-identical to colorizing it with the other. -/
theorem gray_eq_brightBlack :
    Gray = BrightBlack ∧ Gray = "\x1b[90m" ∧
    ∀ (text : String) (enabled : Bool) (bg : List Color),
      ColorizeIfEnabled text enabled Gray bg =
        ColorizeIfEnabled text enabled BrightBlack bg :=
  ⟨rfl, rfl, fun _ _ _ => rfl⟩

/-! ## Claim C8 -/

/-- C8: serializing an empty field sequence yields the empty string, and a
render call performs the second (field-block) write exactly when at least
one field was supplied — the output is always the main line followed by the
field-block write if and only if fields are present. -/
theorem no_fields_no_second_write :
    formatFieldsAsJSON [] = "" ∧
    ∀ (colorsEnabled : Bool) (callerAt : Nat → Option CallerFrame) (ts : String)
      (level : Level) (color : Color) (msg : String) (fields : List Field),
      log colorsEnabled callerAt ts level color msg fields =
        (messageStr colorsEnabled ts level msg (getCallerInfo callerAt 3).1
            (getCallerInfo callerAt 3).2.1 (getCallerInfo callerAt 3).2.2 ++ "\n") ::
          (if fields.isEmpty then [] else [fieldsStr colorsEnabled fields]) ∧
      ((log colorsEnabled callerAt ts level color msg fields).length = 2 ↔
        fields ≠ []) ∧
      ((log colorsEnabled callerAt ts level color msg fields).length = 1 ↔
        fields = []) := by
  refine ⟨rfl, ?_⟩
  intro colorsEnabled callerAt ts level color msg fields
  rcases hc : getCallerInfo callerAt 3 with ⟨file, line, fn⟩
  cases fields with
  | nil => simp [log, hc]
  | cons f rest => simp [log, hc]

/-! ## Claim C2 -/

/-- C2 (defect evaluation): on the single field `a = 1` the serializer
emits the doubly-indented block — first line `  {`, key line with six
leading spaces, closing line `    }` — because `json.MarshalIndent` is
called with line lead `"  "` and then two more spaces are added per line;
the output differs from the four-space-key / two-space-close block that
the repository's README and the spec illustrate. -/
theorem formatFields_double_indent_eval :
    formatFieldsAsJSON [⟨"a", GoValue.int 1⟩] = "  \x7b\n      \"a\": 1\n    \x7d" ∧
    formatFieldsAsJSON [⟨"a", GoValue.int 1⟩] ≠ "  \x7b\n    \"a\": 1\n  \x7d" := by
  constructor
  · rfl
  · decide

/-! ## Claim C6 -/

/-- C6: whenever the runtime stack walk cannot produce the requested frame,
`getCallerInfo` returns exactly the sentinel triple `("???", 0, "???")`
instead of signalling an error, and rendering proceeds with that triple as
displayable content in the location segment. -/
theorem caller_failure_sentinel
    (callerAt : Nat → Option CallerFrame) (skip : Nat)
    (h : callerAt skip = none) :
    getCallerInfo callerAt skip = ("???", 0, "???") ∧
    moduleStr false "???" 0 "???" = "📁 ???:0 ⚡ ???" ∧
    ∀ (colorsEnabled : Bool) (ts : String) (level : Level) (color : Color)
      (msg : String) (fields : List Field), callerAt 3 = none →
      log colorsEnabled callerAt ts level color msg fields =
        (messageStr colorsEnabled ts level msg "???" 0 "???" ++ "\n") ::
          (if fields.isEmpty then [] else [fieldsStr colorsEnabled fields]) := by
  refine ⟨by simp [getCallerInfo, h], by decide, ?_⟩
  intro colorsEnabled ts level color msg fields h3
  simp only [log, getCallerInfo, h3]
  cases fields <;> simp

/-- Witness for C6 at the concrete always-failing stack walk. -/
theorem caller_failure_sentinel_witness :
    ((fun _ : Nat => (none : Option CallerFrame)) 3 = none) ∧
    getCallerInfo (fun _ => none) 3 = ("???", 0, "???") ∧
    moduleStr false "???" 0 "???" = "📁 ???:0 ⚡ ???" ∧
    log false (fun _ => none) "ts" LevelInfo Yellow "hi" [] =
      (messageStr false "ts" LevelInfo "hi" "???" 0 "???" ++ "\n") ::
        (if ([] : List Field).isEmpty then [] else [fieldsStr false []]) := by
  have h := caller_failure_sentinel (fun _ => none) 3 rfl
  exact ⟨rfl, h.1, h.2.1, h.2.2 false "ts" LevelInfo Yellow "hi" [] rfl⟩

/-! ## No-escape-byte lemmas -/

theorem digit_char_ne_esc (n : Nat) : Char.ofNat (48 + n % 10) ≠ '\x1b' := by
  have h : n % 10 < 10 := Nat.mod_lt _ (by omega)
  set r := n % 10 with hr
  interval_cases r <;> decide

theorem natDigitsAux_no_esc (fuel n : Nat) : '\x1b' ∉ natDigitsAux fuel n := by
  induction fuel generalizing n with
  | zero => simp [natDigitsAux]
  | succ fuel ih =>
    simp only [natDigitsAux]
    split
    · simp
    · intro hmem
      rcases List.mem_append.mp hmem with hmem | hmem
      · exact ih _ hmem
      · rcases List.mem_singleton.mp hmem with h
        exact digit_char_ne_esc n h.symm

theorem noEsc_natRepr (n : Nat) : noEsc (natRepr n) := by
  rw [natRepr]
  split
  · decide
  · exact natDigitsAux_no_esc _ _

theorem noEsc_itoa (i : Int) : noEsc (itoa i) := by
  cases i with
  | ofNat n => exact noEsc_natRepr n
  | negSucc n =>
    rw [show itoa (Int.negSucc n) = "-" ++ natRepr (n + 1) from rfl]
    exact noEsc_append.mpr ⟨by decide, noEsc_natRepr _⟩

theorem splitChar_ne_nil (sep : Char) : ∀ l, splitChar sep l ≠ []
  | [] => by simp [splitChar]
  | c :: rest => by
    simp only [splitChar]
    rcases h : splitChar sep rest with _ | ⟨cur, rs⟩
    · exact absurd h (splitChar_ne_nil sep rest)
    · change (if c = sep then [] :: cur :: rs else (c :: cur) :: rs) ≠ []
      split <;> simp

theorem mem_splitChar_subset (sep : Char) :
    ∀ (l x : List Char), x ∈ splitChar sep l → ∀ c ∈ x, c ∈ l
  | [], x, hx, c, hc => by
    simp [splitChar] at hx
    subst hx
    cases hc
  | c₀ :: rest, x, hx, c, hc => by
    simp only [splitChar] at hx
    rcases h : splitChar sep rest with _ | ⟨cur, rs⟩
    · exact absurd h (splitChar_ne_nil sep rest)
    · rw [h] at hx
      change x ∈ (if c₀ = sep then [] :: cur :: rs else (c₀ :: cur) :: rs) at hx
      by_cases hsep : c₀ = sep
      · rw [if_pos hsep] at hx
        rcases List.mem_cons.mp hx with rfl | hx
        · cases hc
        · have hx' : x ∈ splitChar sep rest := by
            rw [h]
            exact hx
          exact List.mem_cons_of_mem _
            (mem_splitChar_subset sep rest x hx' c hc)
      · rw [if_neg hsep] at hx
        rcases List.mem_cons.mp hx with rfl | hx
        · rcases List.mem_cons.mp hc with rfl | hc
          · exact List.mem_cons_self _ _
          · have hcur : cur ∈ splitChar sep rest := by
              rw [h]
              exact List.mem_cons_self _ _
            exact List.mem_cons_of_mem _
              (mem_splitChar_subset sep rest cur hcur c hc)
        · have hx' : x ∈ splitChar sep rest := by
            rw [h]
            exact List.mem_cons_of_mem _ hx
          exact List.mem_cons_of_mem _
            (mem_splitChar_subset sep rest x hx' c hc)

theorem list_getLastD_mem {α : Type} : ∀ (l : List α) (d : α), l ≠ [] → l.getLastD d ∈ l
  | [], _, h => absurd rfl h
  | [a], _, _ => by simp
  | a :: b :: rest, d, _ => by
    rw [List.getLastD_cons]
    exact List.mem_cons_of_mem _ (list_getLastD_mem (b :: rest) a (by simp))

theorem noEsc_shortFn {fn : String} (h : noEsc fn) : noEsc (shortFnOf fn) := by
  intro hmem
  have hx : (splitChar '.' fn.data).getLastD fn.data ∈ splitChar '.' fn.data :=
    list_getLastD_mem _ _ (splitChar_ne_nil _ _)
  exact h (mem_splitChar_subset '.' fn.data _ hx _ hmem)

/-! ## Claim C1 -/

/-- C1 (amended): for each of the six defined levels, a render call with
colors disabled writes as its first write one newline-terminated line made
of the clock icon and timestamp, the level segment, the location segment,
and the speech-bubble icon with the message, in that order with the
literal `" │ "` separators; the line contains the level's literal label
and the message text, and — provided the message and the runtime-supplied
timestamp and location strings carry no escape byte themselves — the line
contains zero escape bytes. -/
theorem log_plain_line_structure
    (callerAt : Nat → Option CallerFrame) (ts msg : String) (level : Level)
    (color : Color) (fields : List Field) (file : String) (line : Int)
    (fn : String)
    (h : level ∈ definedLevels)
    (hc : getCallerInfo callerAt 3 = (file, line, fn))
    (hts : noEsc ts) (hmsg : noEsc msg) (hfile : noEsc file) (hfn : noEsc fn) :
    ∃ w rest,
      log false callerAt ts level color msg fields = w :: rest ∧
      w = "🕒 " ++ " " ++ ts ++ " │ " ++
          (levelIcon level ++ " " ++ levelLabel level) ++ " │ " ++
          ("📁" ++ " " ++ file ++ ":" ++ itoa line ++ " " ++ "⚡" ++ " " ++
            shortFnOf fn) ++ " │ " ++ "💬 " ++ " " ++ msg ++ "\n" ∧
      (∃ x y, w = x ++ levelLabel level ++ y) ∧
      (∃ x y, w = x ++ msg ++ y) ∧
      noEsc w := by
  have hcases : level = LevelInfo ∨ level = LevelSuccess ∨ level = LevelDebug ∨
      level = LevelCritical ∨ level = LevelError ∨ level = LevelWarn := by
    simpa [definedLevels] using h
  have hSeg : getColoredLevel false level =
      levelIcon level ++ " " ++ levelLabel level := by
    rcases hcases with rfl | rfl | rfl | rfl | rfl | rfl <;> decide
  have hMsg : getColoredMessage false level msg = msg := by
    rcases hcases with rfl | rfl | rfl | rfl | rfl | rfl <;>
      simp [getColoredMessage, ColorizeIfEnabled, LevelInfo, LevelSuccess,
        LevelDebug, LevelCritical, LevelError, LevelWarn]
  have hIc : noEsc (levelIcon level) := by
    rcases hcases with rfl | rfl | rfl | rfl | rfl | rfl <;> decide
  have hLb : noEsc (levelLabel level) := by
    rcases hcases with rfl | rfl | rfl | rfl | rfl | rfl <;> decide
  have hMod : moduleStr false file line fn =
      "📁" ++ " " ++ file ++ ":" ++ itoa line ++ " " ++ "⚡" ++ " " ++
        shortFnOf fn := by
    simp [moduleStr, ColorizeIfEnabled]
  have heq : messageStr false ts level msg file line fn ++ "\n" =
      "🕒 " ++ " " ++ ts ++ " │ " ++
        (levelIcon level ++ " " ++ levelLabel level) ++ " │ " ++
        ("📁" ++ " " ++ file ++ ":" ++ itoa line ++ " " ++ "⚡" ++ " " ++
          shortFnOf fn) ++ " │ " ++ "💬 " ++ " " ++ msg ++ "\n" := by
    rw [messageStr, hSeg, hMsg, hMod]
    simp [ColorizeIfEnabled, String.append_assoc]
  refine ⟨messageStr false ts level msg file line fn ++ "\n",
    (if fields.length > 0 then [fieldsStr false fields] else []),
    ?_, heq, ?_, ?_, ?_⟩
  · simp only [log, hc]
  · refine ⟨"🕒 " ++ " " ++ ts ++ " │ " ++ levelIcon level ++ " ",
      " │ " ++ ("📁" ++ " " ++ file ++ ":" ++ itoa line ++ " " ++ "⚡" ++ " " ++
        shortFnOf fn) ++ " │ " ++ "💬 " ++ " " ++ msg ++ "\n", ?_⟩
    rw [heq]
    simp [String.append_assoc]
  · refine ⟨"🕒 " ++ " " ++ ts ++ " │ " ++
      (levelIcon level ++ " " ++ levelLabel level) ++ " │ " ++
      ("📁" ++ " " ++ file ++ ":" ++ itoa line ++ " " ++ "⚡" ++ " " ++
        shortFnOf fn) ++ " │ " ++ "💬 " ++ " ", "\n", ?_⟩
    rw [heq]
  · rw [heq]
    simp only [noEsc_append]
    repeat' apply And.intro
    all_goals first
      | exact hts
      | exact hmsg
      | exact hfile
      | exact hIc
      | exact hLb
      | exact noEsc_itoa line
      | exact noEsc_shortFn hfn
      | decide

/-- Counterexample to C1 as stated for every message: a message that itself
carries an escape byte makes the rendered line carry one even with colors
disabled. -/
theorem log_plain_line_escape_counterexample :
    ¬ noEsc ((log false
      (fun _ => some ⟨"main.go", 15, some "main.main"⟩)
      "2025-09-02 15:30:45.123" LevelInfo Yellow "\x1b[31m" []).headD "") := by
  decide

/-- Witness for C1 at a concrete escape-free render call. -/
theorem log_plain_line_structure_witness :
    ((LevelInfo : Level) ∈ definedLevels) ∧
    getCallerInfo (fun _ => some ⟨"main.go", 15, some "main.main"⟩) 3 =
      ("main.go", 15, "main.main") ∧
    noEsc "2025-09-02 15:30:45.123" ∧ noEsc "hello" ∧ noEsc "main.go" ∧
    noEsc "main.main" ∧
    ∃ w rest,
      log false (fun _ => some ⟨"main.go", 15, some "main.main"⟩)
        "2025-09-02 15:30:45.123" LevelInfo Yellow "hello" [] = w :: rest ∧
      w = "🕒 " ++ " " ++ "2025-09-02 15:30:45.123" ++ " │ " ++
          (levelIcon LevelInfo ++ " " ++ levelLabel LevelInfo) ++ " │ " ++
          ("📁" ++ " " ++ "main.go" ++ ":" ++ itoa 15 ++ " " ++ "⚡" ++ " " ++
            shortFnOf "main.main") ++ " │ " ++ "💬 " ++ " " ++ "hello" ++ "\n" ∧
      (∃ x y, w = x ++ levelLabel LevelInfo ++ y) ∧
      (∃ x y, w = x ++ "hello" ++ y) ∧
      noEsc w := by
  refine ⟨by decide, by decide, by decide, by decide, by decide, by decide, ?_⟩
  exact log_plain_line_structure (fun _ => some ⟨"main.go", 15, some "main.main"⟩)
    "2025-09-02 15:30:45.123" "hello" LevelInfo Yellow []
    "main.go" 15 "main.main" (by decide) (by decide)
    (by decide) (by decide) (by decide) (by decide)

/-! ## Claim C5 -/

/-- C5: every severity value outside the six defined levels renders the
literal `UNDEFINED` both as the level tag and in place of the message, and
the render call still produces its line (no failure path). -/
theorem undefined_level_renders_undefined
    (colorsEnabled : Bool) (level : Level) (msg : String)
    (h : level ∉ definedLevels) :
    getColoredLevel colorsEnabled level = "UNDEFINED" ∧
    getColoredMessage colorsEnabled level msg = "UNDEFINED" ∧
    ∀ (callerAt : Nat → Option CallerFrame) (ts : String) (color : Color)
      (fields : List Field),
      ∃ w rest x y,
        log colorsEnabled callerAt ts level color msg fields = w :: rest ∧
        w = x ++ "UNDEFINED" ++ y ++ "UNDEFINED" ++ "\n" := by
  have h6 : level ≠ LevelInfo ∧ level ≠ LevelSuccess ∧ level ≠ LevelDebug ∧
      level ≠ LevelCritical ∧ level ≠ LevelError ∧ level ≠ LevelWarn := by
    simpa [definedLevels, not_or] using h
  obtain ⟨h1, h2, h3, h4, h5, h6'⟩ := h6
  have hL : getColoredLevel colorsEnabled level = "UNDEFINED" := by
    simp [getColoredLevel, h1, h2, h3, h4, h5, h6']
  have hM : getColoredMessage colorsEnabled level msg = "UNDEFINED" := by
    simp [getColoredMessage, h1, h2, h3, h4, h5, h6']
  refine ⟨hL, hM, ?_⟩
  intro callerAt ts color fields
  rcases hc : getCallerInfo callerAt 3 with ⟨file, line, fn⟩
  refine ⟨messageStr colorsEnabled ts level msg file line fn ++ "\n",
    (if fields.length > 0 then [fieldsStr colorsEnabled fields] else []),
    ColorizeIfEnabled "🕒 " colorsEnabled BrightGreen [] ++ " " ++
      ColorizeIfEnabled ts colorsEnabled Green [] ++ " │ ",
    " │ " ++ moduleStr colorsEnabled file line fn ++ " │ " ++
      ColorizeIfEnabled "💬 " colorsEnabled BrightWhite [] ++ " ", ?_, ?_⟩
  · simp [log, hc]
  · rw [messageStr, hL, hM]
    simp [String.append_assoc]
    rw [← String.append_assoc " │ UNDEFINED" " │ "]
    simp

/-- Witness for C5 at the concrete out-of-range level 42. -/
theorem undefined_level_renders_undefined_witness :
    ((42 : Level) ∉ definedLevels) ∧
    getColoredLevel true 42 = "UNDEFINED" ∧
    getColoredMessage true 42 "boom" = "UNDEFINED" ∧
    ∃ w rest x y,
      log true (fun _ => none) "ts" 42 Yellow "boom" [] = w :: rest ∧
      w = x ++ "UNDEFINED" ++ y ++ "UNDEFINED" ++ "\n" := by
  have h := undefined_level_renders_undefined true 42 "boom" (by decide)
  exact ⟨by decide, h.1, h.2.1, h.2.2 (fun _ => none) "ts" Yellow []⟩

/-! ## Lemmas for the key-order of the serialized block (Claim C9) -/

theorem addLineIndentAux_append : ∀ a b : List Char,
    addLineIndentAux (a ++ b) = addLineIndentAux a ++ addLineIndentAux b
  | [], _ => rfl
  | c :: rest, b => by
    simp only [List.cons_append, addLineIndentAux]
    split <;> simp [addLineIndentAux_append rest b]

theorem addLineIndentAux_of_no_newline : ∀ {k : List Char}, '\n' ∉ k →
    addLineIndentAux k = k
  | [], _ => rfl
  | c :: rest, h => by
    simp only [addLineIndentAux]
    have hne : ¬ c = '\n' := by
      intro hc
      exact h (by rw [← hc]; exact List.mem_cons_self _ _)
    rw [if_neg hne,
      addLineIndentAux_of_no_newline (fun hc => h (List.mem_cons_of_mem c hc))]

theorem containsInOrder_append_left : ∀ (ks : List (List Char)) (pre s : List Char),
    containsInOrder ks s → containsInOrder ks (pre ++ s)
  | [], _, _, _ => trivial
  | k :: ks, pre, s, ⟨a, b, hs, hrest⟩ =>
    ⟨pre ++ a, b, by rw [hs]; simp, hrest⟩

theorem containsInOrder_append_right : ∀ (ks : List (List Char)) (s post : List Char),
    containsInOrder ks s → containsInOrder ks (s ++ post)
  | [], _, _, _ => trivial
  | k :: ks, s, post, ⟨a, b, hs, hrest⟩ =>
    ⟨a, b ++ post, by rw [hs]; simp, containsInOrder_append_right ks b post hrest⟩

theorem containsInOrder_addLineIndentAux :
    ∀ (ks : List (List Char)) (s : List Char), (∀ k ∈ ks, '\n' ∉ k) →
      containsInOrder ks s → containsInOrder ks (addLineIndentAux s)
  | [], _, _, _ => trivial
  | k :: ks, s, hnl, ⟨a, b, hs, hrest⟩ => by
    refine ⟨addLineIndentAux a, addLineIndentAux b, ?_, ?_⟩
    · rw [hs, addLineIndentAux_append, addLineIndentAux_append,
        addLineIndentAux_of_no_newline (hnl k (List.mem_cons_self _ _))]
    · exact containsInOrder_addLineIndentAux ks b
        (fun k' hk' => hnl k' (List.mem_cons_of_mem _ hk')) hrest

theorem hexDigitChar_ne_newline {n : Nat} (h : n < 16) : hexDigitChar n ≠ '\n' := by
  interval_cases n <;> decide

theorem quoteChar_no_newline (c : Char) : '\n' ∉ quoteChar c := by
  rw [quoteChar]
  by_cases h1 : c = '"'
  · simp [h1]
  by_cases h2 : c = '\\'
  · simp [h1, h2]
  by_cases h3 : c = '\n'
  · simp [h1, h2, h3]
  by_cases h4 : c = '\r'
  · simp [h1, h2, h3, h4]
  by_cases h5 : c = '\t'
  · simp [h1, h2, h3, h4, h5]
  by_cases h6 : c.toNat < 0x20 ∨ c = '<' ∨ c = '>' ∨ c = '&'
  · rw [if_neg h1, if_neg h2, if_neg h3, if_neg h4, if_neg h5, if_pos h6]
    have hd : hexDigitChar (c.toNat / 16) ≠ '\n' := by
      rcases h6 with h6 | h6 | h6 | h6
      · exact hexDigitChar_ne_newline (by omega)
      all_goals (subst h6; decide)
    have hm : hexDigitChar (c.toNat % 16) ≠ '\n' :=
      hexDigitChar_ne_newline (Nat.mod_lt _ (by omega))
    intro hc
    simp only [List.mem_cons, List.not_mem_nil, or_false] at hc
    rcases hc with hc | hc | hc | hc | hc | hc
    · exact absurd hc (by decide)
    · exact absurd hc (by decide)
    · exact absurd hc (by decide)
    · exact absurd hc (by decide)
    · exact hd hc.symm
    · exact hm hc.symm
  by_cases h7 : c.toNat = 0x2028 ∨ c.toNat = 0x2029
  · rw [if_neg h1, if_neg h2, if_neg h3, if_neg h4, if_neg h5, if_neg h6, if_pos h7]
    have hm : hexDigitChar (c.toNat % 16) ≠ '\n' :=
      hexDigitChar_ne_newline (Nat.mod_lt _ (by omega))
    intro hc
    simp only [List.mem_cons, List.not_mem_nil, or_false] at hc
    rcases hc with hc | hc | hc | hc | hc | hc <;> first | exact absurd hc (by decide) | exact hm hc.symm
  · rw [if_neg h1, if_neg h2, if_neg h3, if_neg h4, if_neg h5, if_neg h6, if_neg h7]
    intro hc
    rcases List.mem_singleton.mp hc with rfl
    exact h3 rfl

theorem quoteBody_no_newline : ∀ l : List Char, '\n' ∉ quoteBody l
  | [] => by simp [quoteBody]
  | c :: rest => by
    simp only [quoteBody]
    intro h
    rcases List.mem_append.mp h with h | h
    · exact quoteChar_no_newline c h
    · exact quoteBody_no_newline rest h

theorem quoteStr_no_newline (k : String) : '\n' ∉ (quoteStr k).data := by
  intro h
  rcases List.mem_cons.mp h with h | h
  · exact absurd h (by decide)
  · rcases List.mem_append.mp h with h | h
    · exact quoteBody_no_newline _ h
    · exact absurd (List.mem_singleton.mp h) (by decide)

theorem mem_mapInsert {e : String × GoValue} {key : String} {v : GoValue} :
    ∀ {m}, e ∈ mapInsert key v m → e = (key, v) ∨ e ∈ m
  | [], h => by simpa [mapInsert] using h
  | (k, w) :: rest, h => by
    simp only [mapInsert] at h
    by_cases hk : key = k
    · rw [if_pos hk] at h
      rcases List.mem_cons.mp h with h | h
      · exact Or.inl h
      · exact Or.inr (List.mem_cons_of_mem _ h)
    · rw [if_neg hk] at h
      by_cases hlt : keyLt key k = true
      · rw [if_pos hlt] at h
        rcases List.mem_cons.mp h with h | h
        · exact Or.inl h
        · exact Or.inr h
      · rw [if_neg hlt] at h
        rcases List.mem_cons.mp h with h | h
        · exact Or.inr (h ▸ List.mem_cons_self _ _)
        · rcases mem_mapInsert h with h | h
          · exact Or.inl h
          · exact Or.inr (List.mem_cons_of_mem _ h)

theorem pairwise_mapInsert {key : String} {v : GoValue} :
    ∀ {m}, List.Pairwise (fun a b => keyLt a.1 b.1 = true) m →
      List.Pairwise (fun a b => keyLt a.1 b.1 = true) (mapInsert key v m)
  | [], _ => by simp [mapInsert]
  | (k, w) :: rest, hp => by
    rcases List.pairwise_cons.mp hp with ⟨hhead, htail⟩
    simp only [mapInsert]
    by_cases hk : key = k
    · rw [if_pos hk]
      exact List.pairwise_cons.mpr ⟨fun b hb => by
        have := hhead b hb
        simpa [hk] using this, htail⟩
    · rw [if_neg hk]
      by_cases hlt : keyLt key k = true
      · rw [if_pos hlt]
        refine List.pairwise_cons.mpr ⟨?_, hp⟩
        intro b hb
        rcases List.mem_cons.mp hb with rfl | hb
        · exact hlt
        · exact keyLt_trans hlt (hhead b hb)
      · rw [if_neg hlt]
        refine List.pairwise_cons.mpr ⟨?_, pairwise_mapInsert htail⟩
        intro b hb
        rcases mem_mapInsert hb with rfl | hb
        · exact keyLt_of_not hk hlt
        · exact hhead b hb

theorem buildFieldMap_pairwise_aux :
    ∀ (fields : List Field) (m : List (String × GoValue)),
      List.Pairwise (fun a b => keyLt a.1 b.1 = true) m →
      List.Pairwise (fun a b => keyLt a.1 b.1 = true)
        (fields.foldl (fun m f => mapInsert f.Key f.Value m) m)
  | [], _, hm => hm
  | f :: rest, m, hm => by
    simp only [List.foldl_cons]
    exact buildFieldMap_pairwise_aux rest _ (pairwise_mapInsert hm)

theorem buildFieldMap_pairwise (fields : List Field) :
    List.Pairwise (fun a b => keyLt a.1 b.1 = true) (buildFieldMap fields) :=
  buildFieldMap_pairwise_aux fields [] (by simp)

theorem mapInsert_ne_nil (key : String) (v : GoValue) :
    ∀ m, mapInsert key v m ≠ []
  | [] => by simp [mapInsert]
  | (k, w) :: rest => by
    simp only [mapInsert]
    split
    · simp
    · split <;> simp

theorem buildFieldMap_ne_nil_aux :
    ∀ (fields : List Field) (m : List (String × GoValue)), m ≠ [] →
      fields.foldl (fun m f => mapInsert f.Key f.Value m) m ≠ []
  | [], _, hm => hm
  | f :: rest, m, _ => by
    simp only [List.foldl_cons]
    exact buildFieldMap_ne_nil_aux rest _ (mapInsert_ne_nil _ _ _)

theorem buildFieldMap_ne_nil {fields : List Field} (h : fields ≠ []) :
    buildFieldMap fields ≠ [] := by
  rcases fields with _ | ⟨f, rest⟩
  · exact absurd rfl h
  · simp only [buildFieldMap, List.foldl_cons]
    exact buildFieldMap_ne_nil_aux rest _ (mapInsert_ne_nil _ _ _)

theorem sortDeepEntries_eq_map : ∀ es : List (String × GoValue),
    sortDeepEntries es = es.map (fun e => (e.1, sortDeep e.2))
  | [] => rfl
  | (k, v) :: rest => by
    simp [sortDeepEntries, sortDeepEntries_eq_map rest]

theorem insertEntry_of_head_gt {e f : String × GoValue} {rest : List (String × GoValue)}
    (h : keyLt e.1 f.1 = true) : insertEntry e (f :: rest) = e :: f :: rest := by
  simp [insertEntry, h]

theorem sortEntries_of_pairwise : ∀ {es : List (String × GoValue)},
    List.Pairwise (fun a b => keyLt a.1 b.1 = true) es → sortEntries es = es
  | [], _ => rfl
  | e :: rest, hp => by
    rcases List.pairwise_cons.mp hp with ⟨hhead, htail⟩
    show insertEntry e (sortEntries rest) = e :: rest
    rw [sortEntries_of_pairwise htail]
    rcases rest with _ | ⟨f, rs⟩
    · rfl
    · exact insertEntry_of_head_gt (hhead f (List.mem_cons_self _ _))

theorem encodeEntries_cons_ok {pfx ind : String} {d : Nat} {e : String × GoValue}
    {es : List (String × GoValue)} {strs : List String}
    (h : encodeEntries pfx ind d (e :: es) = .ok strs) :
    ∃ s rstrs, encodeValue pfx ind d e.2 = .ok s ∧
      encodeEntries pfx ind d es = .ok rstrs ∧
      strs = (pfx ++ repeatStr ind d ++ quoteStr e.1 ++ ": " ++ s) :: rstrs := by
  rcases e with ⟨k, v⟩
  cases hev : encodeValue pfx ind d v with
  | error err => simp [encodeEntries, hev] at h
  | ok s =>
    cases hrest : encodeEntries pfx ind d es with
    | error err => simp [encodeEntries, hev, hrest] at h
    | ok rstrs =>
      refine ⟨s, rstrs, rfl, rfl, ?_⟩
      simp only [encodeEntries, hev, hrest, Except.ok.injEq] at h
      exact h.symm

theorem encodeEntries_keys_in_order (pfx ind : String) (d : Nat) :
    ∀ (es : List (String × GoValue)) (strs : List String),
      encodeEntries pfx ind d es = .ok strs →
      containsInOrder (es.map fun e => (quoteStr e.1).data)
        (joinSep ",\n" strs).data
  | [], strs, h => by
    have hs : strs = [] := by
      simpa [encodeEntries] using h.symm
    subst hs
    trivial
  | (k, v) :: rest, strs, h => by
    obtain ⟨s, rstrs, hev, hrest, hstrs⟩ := encodeEntries_cons_ok h
    subst hstrs
    rcases rest with _ | ⟨r0, rest'⟩
    · have hr : rstrs = [] := by
        simpa [encodeEntries] using hrest.symm
      subst hr
      refine ⟨(pfx ++ repeatStr ind d).data, (": " ++ s).data, ?_, trivial⟩
      simp [joinSep, String.data_append, List.append_assoc]
    · obtain ⟨s', rstrs', hev', hrest', hstrs'⟩ := encodeEntries_cons_ok hrest
      have hIH := encodeEntries_keys_in_order pfx ind d (r0 :: rest') rstrs hrest
      subst hstrs'
      refine ⟨(pfx ++ repeatStr ind d).data,
        (": " ++ s ++ ",\n").data ++
          (joinSep ",\n" ((pfx ++ repeatStr ind d ++ quoteStr r0.1 ++ ": " ++ s') ::
            rstrs')).data, ?_, ?_⟩
      · simp [joinSep, String.data_append, List.append_assoc]
      · exact containsInOrder_append_left _ _ _ hIH

/-! ## Claim C9 -/

/-- C9: for every non-empty field sequence whose values serialize
successfully, the keys of the collapsed field map are in strictly
increasing bytewise order, and their quoted forms appear in exactly that
order inside the serialized block. -/
theorem serialized_keys_sorted (fields : List Field) (j : String)
    (hne : fields ≠ [])
    (hm : marshalIndent (.obj (buildFieldMap fields)) "  " "  " = .ok j) :
    List.Pairwise (fun a b => keyLt a b = true)
      ((buildFieldMap fields).map Prod.fst) ∧
    containsInOrder
      (((buildFieldMap fields).map Prod.fst).map fun k => (quoteStr k).data)
      (formatFieldsAsJSON fields).data := by
  constructor
  · exact List.Pairwise.map _ (fun a b h => h) (buildFieldMap_pairwise fields)
  · have hm0 := hm
    set m := buildFieldMap fields with hmdef
    have hpw := buildFieldMap_pairwise fields
    have hmap : sortDeepEntries m = m.map fun e => (e.1, sortDeep e.2) :=
      sortDeepEntries_eq_map m
    have hpw2 : List.Pairwise (fun a b => keyLt a.1 b.1 = true)
        (sortDeepEntries m) := by
      rw [hmap]
      exact List.Pairwise.map _ (fun a b h => h) hpw
    have hsorted : sortEntries (sortDeepEntries m) = sortDeepEntries m :=
      sortEntries_of_pairwise hpw2
    rw [marshalIndent, show sortDeep (.obj m) =
      .obj (sortEntries (sortDeepEntries m)) from by simp [sortDeep],
      hsorted, hmap] at hm
    rcases hmm : m.map (fun e => (e.1, sortDeep e.2)) with _ | ⟨e0, es'⟩
    · exact absurd (by simpa using hmm) (buildFieldMap_ne_nil hne)
    · rw [hmm] at hm
      cases hee : encodeEntries "  " "  " 1 (e0 :: es') with
      | error err => simp [encodeValue, hee] at hm
      | ok strs =>
        simp only [encodeValue, hee, Except.ok.injEq] at hm
        have hf : formatFieldsAsJSON fields = addLineIndent j := by
          rw [formatFieldsAsJSON,
            if_neg (by simpa [List.length_eq_zero] using hne), hm0]
        have hko := encodeEntries_keys_in_order "  " "  " 1 (e0 :: es') strs hee
        have hkeys : ((m.map Prod.fst).map fun k => (quoteStr k).data) =
            (e0 :: es').map fun e => (quoteStr e.1).data := by
          rw [← hmm]
          simp [List.map_map, Function.comp]
        rw [hf, hkeys]
        have hnl : ∀ k ∈ (e0 :: es').map fun e => (quoteStr e.1).data,
            '\n' ∉ k := by
          intro k hk
          rcases List.mem_map.mp hk with ⟨e, _, rfl⟩
          exact quoteStr_no_newline _
        have hin : containsInOrder
            ((e0 :: es').map fun e => (quoteStr e.1).data) j.data := by
          rw [← hm]
          have h2 := containsInOrder_append_left _ "\x7b\n".data _
            (containsInOrder_append_right _ _
              ("\n" ++ "  " ++ repeatStr "  " 0 ++ "\x7d").data hko)
          simpa [String.data_append, List.append_assoc] using h2
        show containsInOrder _ ([' ', ' '] ++ addLineIndentAux j.data)
        exact containsInOrder_append_left _ [' ', ' '] _
          (containsInOrder_addLineIndentAux _ _ hnl hin)

/-- Witness for C9 at the concrete two-field sequence inserted in reverse
key order. -/
theorem serialized_keys_sorted_witness :
    (([⟨"b", GoValue.int 2⟩, ⟨"a", GoValue.int 1⟩] : List Field) ≠ []) ∧
    marshalIndent
      (.obj (buildFieldMap [⟨"b", GoValue.int 2⟩, ⟨"a", GoValue.int 1⟩]))
      "  " "  " = .ok "\x7b\n    \"a\": 1,\n    \"b\": 2\n  \x7d" ∧
    (List.Pairwise (fun a b => keyLt a b = true)
      ((buildFieldMap [⟨"b", GoValue.int 2⟩, ⟨"a", GoValue.int 1⟩]).map
        Prod.fst) ∧
    containsInOrder
      (((buildFieldMap [⟨"b", GoValue.int 2⟩, ⟨"a", GoValue.int 1⟩]).map
          Prod.fst).map fun k => (quoteStr k).data)
      (formatFieldsAsJSON
        [⟨"b", GoValue.int 2⟩, ⟨"a", GoValue.int 1⟩]).data) := by
  refine ⟨by simp, by rfl, ?_⟩
  exact serialized_keys_sorted [⟨"b", GoValue.int 2⟩, ⟨"a", GoValue.int 1⟩]
    "\x7b\n    \"a\": 1,\n    \"b\": 2\n  \x7d" (by simp) (by rfl)

end Maklogger
